import Mathlib

/-!
# Verification of the `sskg` package (seekable sequential key generator)

Shallow embedding of `sskg.go`: the `Seq` stack of `(secret, height)` frontier
nodes, with `New`, `Key`, `Next`, `Seek`, `pop` and `push` translated from the
Go source.  The concrete HKDF-SHA256 `prf` function is an external collaborator
(out of the core's scope per the spec), so every operation is parametric in an
abstract `PRF` with the same argument shape as the Go `prf` function.

Go panics (the explicit `panic("keyspace exhausted")` in `Seek`, and the
out-of-range slice access that `pop` performs on an empty stack) are modelled
by returning `none`; the spec's single error kind `KeyspaceExhausted` is the
`none` outcome.  The Go slice keeps its stack top at the *end*; here the stack
top is the *head* of the list, so Go's `append` (push) is `cons` and Go's pop
of the last element is a head pattern match.
-/

namespace Sskg

/-- A byte string (`[]byte`), modelled as a list of byte values. -/
abbrev Bytes := List Nat

/-- The shape of `func prf(n int, label, secret, seed []byte) []byte`:
arguments are output size, label, secret and seed.  The HKDF-SHA256
instantiation in the source is an external collaborator and stays abstract. -/
abbrev PRF := Nat → String → Bytes → Bytes → Bytes

/-- `type node struct { k []byte; h uint }` -/
structure Node where
  k : Bytes
  h : Nat
deriving DecidableEq

/-- `type Seq struct { nodes []node; key []byte; size int }` with the stack
top kept at the head of `nodes` (the Go slice keeps it at the end). -/
structure Seq where
  nodes : List Node
  key : Bytes
  size : Nat
deriving DecidableEq

/-- `var right = []byte("right")` -/
def right : String := "right"

/-- `var left = []byte("left")` -/
def left : String := "left"

/-- Fuel-driven ceiling base-2 logarithm: `clog2Fuel fuel n` is the least `e`
with `n ≤ 2 ^ e`, provided `n ≤ fuel`.  The fuel makes the definition
structurally recursive, hence kernel-reducible. -/
def clog2Fuel : Nat → Nat → Nat
  | 0, _ => 0
  | fuel + 1, n => if n ≤ 1 then 0 else clog2Fuel fuel ((n + 1) / 2) + 1

/-- The model's height function: the *exact* ceiling of log₂(maxKeys + 1)
(certified equal to `Nat.clog 2 (maxKeys + 1)` by `initialHeight_eq_clog`).
The Go source computes `uint(math.Ceil(math.Log2(float64(maxKeys) + 1)))` in
float64.  That float64 value coincides with this exact ceiling on the exact
range — in particular for every `maxKeys ≤ 2 ^ 32`, where `maxKeys + 1` is
exactly representable and the few-ulp error of `math.Log2` is far smaller
than the distance of `log2(maxKeys + 1)` from the nearest integer — and it
never exceeds the exact ceiling; but for large `maxKeys` it can fall below
it: at `maxKeys = 2 ^ 53` the rounded argument `fl(fl(2 ^ 53) + 1) = 2 ^ 53`
is a power of two (ties-to-even), Go's `Log2` is exact on powers of two, and
the code's height is 53 while the exact ceiling is 54 — see `float64Round`,
`goLog2Arg` and the C2/C7 counterexamples.  Theorems about the height formula
are therefore stated only on the exact range. -/
def initialHeight (maxKeys : Nat) : Nat :=
  clog2Fuel (maxKeys + 1) (maxKeys + 1)

/-- `func New(key, seed []byte, maxKeys, keySize uint) Seq` -/
def New (prf : PRF) (key seed : Bytes) (maxKeys keySize : Nat) : Seq :=
  { nodes := [{ k := prf keySize "seed" key seed, h := initialHeight maxKeys }],
    key := key,
    size := keySize }

/-- `func (s Seq) Key() []byte`.  The Go code indexes the top of the stack,
which is an out-of-range panic on an empty stack, modelled as `none`. -/
def Key (prf : PRF) (s : Seq) : Option Bytes :=
  match s.nodes with
  | [] => none
  | nd :: _ => some (prf s.size "key" s.key nd.k)

/-- `func (s *Seq) pop() ([]byte, uint)`: removes and returns the top node.
On an empty stack the Go code panics (slice index out of range), modelled as
`none`. -/
def pop (s : Seq) : Option (Bytes × Nat × Seq) :=
  match s.nodes with
  | [] => none
  | nd :: rest => some (nd.k, nd.h, { s with nodes := rest })

/-- `func (s *Seq) push(k []byte, h uint)` -/
def push (s : Seq) (k : Bytes) (h : Nat) : Seq :=
  { s with nodes := { k := k, h := h } :: s.nodes }

/-- `func (s *Seq) Next()` -/
def Next (prf : PRF) (s : Seq) : Option Seq :=
  match pop s with
  | none => none
  | some (k, h, t) =>
    if 1 < h then
      some (push (push t (prf s.size right s.key k) (h - 1))
        (prf s.size left s.key k) (h - 1))
    else
      some t

/-- The `for n > 0` loop of `func (s *Seq) Seek(n int)` together with the
final `s.push(k, h)`.  `rest` is the stack below the popped top; the loop's
pushes cons onto it.  The `h ≤ 0` check after the decrement is the
`panic("keyspace exhausted")` branch, modelled as `none`.  (For a node of
height 0 — unreachable whenever `maxKeys ≥ 1` — the Go `uint` decrement would
wrap around and the loop would never terminate; that case is also `none`
here.)  `pow` is Go's `1 << h`. -/
def seekLoop (prf : PRF) (key : Bytes) (size : Nat) :
    Nat → Int → Bytes → List Node → Option (List Node)
  | h, n, k, rest =>
    if 0 < n then
      match h with
      | 0 => none
      | 1 => none
      | hp + 2 =>
        let pow : Int := ((2 ^ (hp + 1) : Nat) : Int)
        if n < pow then
          seekLoop prf key size (hp + 1) (n - 1) (prf size left key k)
            ({ k := prf size right key k, h := hp + 1 } :: rest)
        else
          seekLoop prf key size (hp + 1) (n - pow) (prf size right key k) rest
    else
      some ({ k := k, h := h } :: rest)

/-- `func (s *Seq) Seek(n int)` -/
def Seek (prf : PRF) (s : Seq) (n : Int) : Option Seq :=
  match pop s with
  | none => none
  | some (k, h, t) =>
    match seekLoop prf s.key s.size h n k t.nodes with
    | none => none
    | some out => some { t with nodes := out }

/-- The states reachable from a given state by successful `Next`/`Seek`
calls. -/
inductive Reachable (prf : PRF) : Seq → Seq → Prop
  | refl (s : Seq) : Reachable prf s s
  | next {s t u : Seq} : Reachable prf s t → Next prf t = some u → Reachable prf s u
  | seek {s t u : Seq} (n : Int) : Reachable prf s t → Seek prf t n = some u →
      Reachable prf s u

/-- A trivial concrete PRF used to instantiate witnesses and counterexamples;
none of the structural claims depend on PRF output values. -/
def cprf : PRF := fun _ _ _ _ => []

/-- Fuel-driven floor base-2 logarithm (structurally recursive, hence
kernel-reducible): `log2Fuel fuel n` is the position of the leading bit of
`n`, provided `n ≤ fuel`. -/
def log2Fuel : Nat → Nat → Nat
  | 0, _ => 0
  | fuel + 1, n => if n ≤ 1 then 0 else log2Fuel fuel (n / 2) + 1

/-- Rounds a natural number to the nearest integer exactly representable in
IEEE-754 binary64 (round-to-nearest, ties to even): values up to `2 ^ 53` are
exact; above, the value is rounded to the nearest multiple of the unit in the
last place `2 ^ (bitlength - 53)`, a tie going to the even quotient.  This is
exactly what Go's conversion `float64(maxKeys)` and the subsequent float64
addition `+ 1` do to integer values in this range (no claim input approaches
the binary64 overflow threshold). -/
def float64Round (m : Nat) : Nat :=
  if m ≤ 2 ^ 53 then m
  else
    let e := log2Fuel m m + 1 - 53
    let q := m / 2 ^ e
    let r := m % 2 ^ e
    let half := 2 ^ (e - 1)
    if r < half then q * 2 ^ e
    else if half < r then (q + 1) * 2 ^ e
    else (if q % 2 = 0 then q else q + 1) * 2 ^ e

/-- The integer value of the float64 argument that Go passes to `math.Log2`
when computing the tree height: `float64(maxKeys) + 1`, each step rounded to
nearest (ties to even).  When this value is a power of two, Go's `Log2`
returns its exponent exactly (the `frac == 0.5` branch of `math.log2`), so
the constructed height is that exponent with no floating-point approximation
involved. -/
def goLog2Arg (maxKeys : Nat) : Nat :=
  float64Round (float64Round maxKeys + 1)

/-! ## The height formula -/

lemma clog2Fuel_eq_clog : ∀ (fuel n : Nat), n ≤ fuel →
    clog2Fuel fuel n = Nat.clog 2 n := by
  intro fuel
  induction fuel with
  | zero =>
    intro n hn
    interval_cases n
    simp [clog2Fuel]
  | succ fp ih =>
    intro n hn
    by_cases h1 : n ≤ 1
    · have : Nat.clog 2 n = 0 := Nat.clog_of_right_le_one h1 2
      simp [clog2Fuel, h1, this]
    · push_neg at h1
      have h2 : 2 ≤ n := h1
      have hrec : Nat.clog 2 n = Nat.clog 2 ((n + 1) / 2) + 1 := by
        have h := @Nat.clog_of_two_le 2 n (by norm_num) h2
        simpa using h
      have hle : (n + 1) / 2 ≤ fp := by omega
      simp [clog2Fuel, h2, Nat.not_le.mpr h1, ih _ hle, hrec]

/-- The source's height formula is the ceiling base-2 logarithm of
`maxKeys + 1`. -/
lemma initialHeight_eq_clog (maxKeys : Nat) :
    initialHeight maxKeys = Nat.clog 2 (maxKeys + 1) :=
  clog2Fuel_eq_clog _ _ (Nat.le_refl _)

lemma initialHeight_pos (maxKeys : Nat) (hmk : 1 ≤ maxKeys) :
    1 ≤ initialHeight maxKeys := by
  rw [initialHeight_eq_clog]
  exact Nat.clog_pos (by norm_num) (by omega)

/-- Unfolding lemma: with `n ≤ 0` the seek loop exits at once and pushes the
popped node back unchanged. -/
lemma seekLoop_of_nonpos (prf : PRF) (key : Bytes) (size : Nat) (h : Nat)
    (n : Int) (k : Bytes) (rest : List Node) (hn : ¬ 0 < n) :
    seekLoop prf key size h n k rest = some ({ k := k, h := h } :: rest) := by
  rw [seekLoop.eq_def]
  simp [hn]

/-- Branch-free restatement of `Next` used for rewriting. -/
lemma next_eq (prf : PRF) (s : Seq) :
    Next prf s =
      match s.nodes with
      | [] => none
      | nd :: rest =>
        if 1 < nd.h then
          some ⟨{ k := prf s.size left s.key nd.k, h := nd.h - 1 } ::
                { k := prf s.size right s.key nd.k, h := nd.h - 1 } :: rest,
                s.key, s.size⟩
        else some ⟨rest, s.key, s.size⟩ := by
  cases hs : s.nodes with
  | nil => simp [Next, pop, hs]
  | cons nd rest => by_cases h1 : 1 < nd.h <;> simp [Next, pop, push, hs, h1]

/-- The left branch of the seek loop: the target is inside the left child's
subtree, so the right child is pushed and the walk descends left. -/
lemma seekLoop_left (prf : PRF) (key : Bytes) (size : Nat) (hq : Nat) (n : Int)
    (k : Bytes) (rest : List Node) (hn : 0 < n)
    (hlt : n < (2 : Int) ^ (hq + 1)) :
    seekLoop prf key size (hq + 2) n k rest =
      seekLoop prf key size (hq + 1) (n - 1) (prf size left key k)
        ({ k := prf size right key k, h := hq + 1 } :: rest) := by
  rw [seekLoop.eq_def]
  simp [hn, hlt]

/-- The right branch of the seek loop: the target is beyond the left child's
subtree, so the whole left subtree is skipped. -/
lemma seekLoop_right (prf : PRF) (key : Bytes) (size : Nat) (hq : Nat) (n : Int)
    (k : Bytes) (rest : List Node) (hn : 0 < n)
    (hge : ¬ n < (2 : Int) ^ (hq + 1)) :
    seekLoop prf key size (hq + 2) n k rest =
      seekLoop prf key size (hq + 1) (n - (2 : Int) ^ (hq + 1))
        (prf size right key k) rest := by
  rw [seekLoop.eq_def]
  simp [hn, hge]

/-- For a node of height `h ≥ 1`, the seek loop fails (hits the `h ≤ 0`
branch) exactly when the requested advance `n` reaches or exceeds the
`2 ^ h - 1` keys of the node's subtree. -/
lemma seekLoop_none_iff (prf : PRF) (key : Bytes) (size : Nat) :
    ∀ (h : Nat), 1 ≤ h → ∀ (n : Int) (k : Bytes) (rest : List Node),
      (seekLoop prf key size h n k rest = none ↔
        ((2 ^ h - 1 : Nat) : Int) ≤ n) := by
  intro h
  induction h with
  | zero => intro h0; exact absurd h0 (by omega)
  | succ hp ih =>
    intro _ n k rest
    by_cases hn : 0 < n
    · cases hp with
      | zero =>
        rw [seekLoop.eq_def]
        simp [hn]
        omega
      | succ hq =>
        have hx : 1 ≤ (2 : Nat) ^ (hq + 1) := Nat.one_le_two_pow
        have hPpos : (0 : Int) < (2 : Int) ^ (hq + 1) := by positivity
        have hcast2 : ((2 ^ (hq + 1) - 1 : Nat) : Int) = (2 : Int) ^ (hq + 1) - 1 := by
          push_cast [hx]
          ring
        have hcast1 : ((2 ^ (hq + 1 + 1) - 1 : Nat) : Int) =
            (2 : Int) ^ (hq + 1) * 2 - 1 := by
          have h1 : (1 : Nat) ≤ 2 ^ (hq + 1 + 1) := Nat.one_le_two_pow
          rw [Nat.cast_sub h1]
          push_cast
          rw [pow_succ]
        rw [hcast1]
        by_cases hlt : n < (2 : Int) ^ (hq + 1)
        · rw [show hq + 1 + 1 = hq + 2 from rfl,
            seekLoop_left prf key size hq n k rest hn hlt,
            ih (by omega) (n - 1) _ _, hcast2]
          omega
        · rw [show hq + 1 + 1 = hq + 2 from rfl,
            seekLoop_right prf key size hq n k rest hn hlt,
            ih (by omega) (n - (2 : Int) ^ (hq + 1)) _ _, hcast2]
          omega
    · have h2 : (2 : Nat) ≤ 2 ^ (hp + 1) := by
        calc (2 : Nat) = 2 ^ 1 := rfl
        _ ≤ 2 ^ (hp + 1) := Nat.pow_le_pow_right (by norm_num) (by omega)
      rw [seekLoop_of_nonpos prf key size (hp + 1) n k rest hn]
      constructor
      · intro hc
        exact absurd hc (by simp)
      · intro hc
        exfalso
        omega

/-- On a freshly constructed sequence, `Seek` fails exactly when `n` is at
least `2 ^ H - 1` — the number of keys addressable from the root node of
height `H = initialHeight maxKeys`. -/
lemma seek_new_none_iff (prf : PRF) (key seed : Bytes) (maxKeys size : Nat)
    (hmk : 1 ≤ maxKeys) (n : Int) :
    Seek prf (New prf key seed maxKeys size) n = none ↔
      ((2 ^ initialHeight maxKeys - 1 : Nat) : Int) ≤ n := by
  have h1 := initialHeight_pos maxKeys hmk
  have hiff := seekLoop_none_iff prf key size (initialHeight maxKeys) h1 n
    (prf size "seed" key seed) []
  have hmain : (Seek prf (New prf key seed maxKeys size) n = none) ↔
      (seekLoop prf key size (initialHeight maxKeys) n
        (prf size "seed" key seed) [] = none) := by
    cases hx : seekLoop prf key size (initialHeight maxKeys) n
        (prf size "seed" key seed) [] with
    | none => simp [Seek, pop, New, hx]
    | some out => simp [Seek, pop, New, hx]
  rw [hmain]
  exact hiff

/-- **C2 is false as stated** for large `maxKeys`, because Go computes the
height in float64.  At `maxKeys = 2 ^ 53` the addition `float64(2 ^ 53) + 1`
rounds (ties-to-even) back to `2 ^ 53` — a power of two, on which Go's `Log2`
is exact and returns 53 with no floating-point approximation involved — so
the program constructs a root of height 53, not
`ceil(log2(2 ^ 53 + 1)) = 54`, and provisions only `2 ^ 53 - 1` keys.  From
that actually-constructed state, seeking `n = 2 ^ 53 - 1 ≤ maxKeys` — not
more advancement than the capacity declared at construction — nevertheless
fails with `KeyspaceExhausted`. -/
theorem seek_capacity_gloss_counterexample :
    goLog2Arg (2 ^ 53) = 2 ^ 53 ∧
    Nat.clog 2 (2 ^ 53 + 1) = 54 ∧
    Seek cprf ⟨[{ k := [], h := 53 }], [], 8⟩ ((2 ^ 53 - 1 : Nat) : Int) = none ∧
    ((2 ^ 53 - 1 : Nat) : Int) ≤ ((2 ^ 53 : Nat) : Int) := by
  refine ⟨by decide, ?_, by decide, by decide⟩
  rw [← initialHeight_eq_clog]
  decide

/-- **C2 (amended)**: on the float64-exact range (`maxKeys ≤ 2 ^ 32`, which
covers the claim's instance), `seek(n)` on a fresh sequence fails with
`KeyspaceExhausted` (modelled as `none`) exactly when the descent would
decrement the height to 0 — exactly when `n` reaches the capacity
`2 ^ H - 1` fixed at construction, `H = ceil(log2(maxKeys + 1))`.  (For
`maxKeys = 2^32`, `H = 33` and `seek(2^33)` fails; that instance is the
separate theorem for C3.)  For larger `maxKeys` the float64 height can fall
below `ceil(log2(maxKeys + 1))` and the code under-provisions: see the
counterexample above. -/
theorem seek_fresh_exhaustion_iff (prf : PRF) (key seed : Bytes)
    (maxKeys size : Nat) (hmk : 1 ≤ maxKeys) (_hub : maxKeys ≤ 2 ^ 32)
    (n : Int) :
    Seek prf (New prf key seed maxKeys size) n = none ↔
      ((2 ^ Nat.clog 2 (maxKeys + 1) - 1 : Nat) : Int) ≤ n := by
  rw [← initialHeight_eq_clog]
  exact seek_new_none_iff prf key seed maxKeys size hmk n

theorem seek_fresh_exhaustion_iff_witness :
    (1 ≤ 4) ∧ ((4 : Nat) ≤ 2 ^ 32) ∧
    (Seek cprf (New cprf [] [] 4 8) 100 = none ↔
      ((2 ^ Nat.clog 2 (4 + 1) - 1 : Nat) : Int) ≤ 100) :=
  ⟨by decide, by decide,
    seek_fresh_exhaustion_iff cprf [] [] 4 8 (by decide) (by decide) 100⟩

/-- **C3**: a failed seek never leaves a usable partially-advanced state: in
the model a failing `Seek` returns `none` (the Go code panics, which the spec
maps to the terminal Exhausted outcome), so no state is produced at all.  In
particular, for `maxKeys = 2^32`, `seek(2^33)` fails with `KeyspaceExhausted`
and yields no usable mutated instance. -/
theorem seek_overshoot_no_usable_state (prf : PRF) (key seed : Bytes)
    (size : Nat) :
    Seek prf (New prf key seed (2 ^ 32) size) ((2 : Int) ^ 33) = none := by
  have h33 : initialHeight (2 ^ 32) = 33 := by decide
  rw [seek_new_none_iff prf key seed (2 ^ 32) size (by norm_num) ((2 : Int) ^ 33),
    h33]
  norm_num

/-! ## The stack-depth bound -/

/-- Shape of the stack *below* the top entry, relative to a lower bound `lo`:
heights are at least `lo`, strictly increasing downwards, and at most
`H - 1`. -/
def TailOK (H : Nat) : Nat → List Node → Prop
  | _, [] => True
  | lo, nd :: rest => lo ≤ nd.h ∧ nd.h + 1 ≤ H ∧ TailOK H (nd.h + 1) rest

/-- Well-formed stack for a sequence of initial height `H`: the top height is
in `[1, H]` and the entries below it ascend strictly, staying below `H`.
Every state reachable from `New` with `maxKeys ≥ 1` satisfies this. -/
def WFStack (H : Nat) : List Node → Prop
  | [] => True
  | nd :: rest => 1 ≤ nd.h ∧ nd.h ≤ H ∧ TailOK H nd.h rest

lemma tailOK_mono (H : Nat) : ∀ (l : List Node) (lo lo' : Nat), lo' ≤ lo →
    TailOK H lo l → TailOK H lo' l := by
  intro l
  cases l with
  | nil => intro lo lo' h ht; trivial
  | cons nd rest =>
    intro lo lo' hle ht
    obtain ⟨ha, hb, hc⟩ := ht
    exact ⟨by omega, hb, hc⟩

lemma tailOK_wfStack (H : Nat) : ∀ (l : List Node) (lo : Nat), 1 ≤ lo →
    TailOK H lo l → WFStack H l := by
  intro l
  cases l with
  | nil => intro lo h ht; trivial
  | cons nd rest =>
    intro lo hlo ht
    obtain ⟨ha, hb, hc⟩ := ht
    exact ⟨by omega, by omega, tailOK_mono H rest _ _ (by omega) hc⟩

lemma tailOK_length (H : Nat) : ∀ (l : List Node) (lo : Nat),
    TailOK H lo l → l.length ≤ H - lo := by
  intro l
  induction l with
  | nil => intro lo ht; simp
  | cons nd rest ih =>
    intro lo ht
    obtain ⟨ha, hb, hc⟩ := ht
    have := ih (nd.h + 1) hc
    simp only [List.length_cons]
    omega

lemma wfStack_length (H : Nat) (l : List Node) (hwf : WFStack H l) :
    l.length ≤ H := by
  cases l with
  | nil => simp
  | cons nd rest =>
    obtain ⟨ha, hb, hc⟩ := hwf
    have := tailOK_length H rest nd.h hc
    simp only [List.length_cons]
    omega

/-- `Next` preserves stack well-formedness. -/
lemma next_wf (prf : PRF) (H : Nat) (s t : Seq) (hwf : WFStack H s.nodes)
    (h : Next prf s = some t) : WFStack H t.nodes := by
  rw [next_eq] at h
  cases hs : s.nodes with
  | nil => rw [hs] at h; simp at h
  | cons nd rest =>
    rw [hs] at hwf
    obtain ⟨ha, hb, hc⟩ := hwf
    rw [hs] at h
    by_cases h1 : 1 < nd.h
    · simp only [h1, if_true] at h
      injection h with h2
      subst h2
      simp only [WFStack, TailOK]
      refine ⟨by omega, by omega, by omega, by omega, ?_⟩
      rw [show nd.h - 1 + 1 = nd.h from by omega]
      exact hc
    · simp only [h1, if_false] at h
      injection h with h2
      subst h2
      have hnd1 : nd.h = 1 := by omega
      rw [hnd1] at hc
      exact tailOK_wfStack H rest 1 (by omega) hc

/-- The seek loop preserves stack well-formedness: it only pushes right
siblings at strictly decreasing heights below the popped node's height. -/
lemma seekLoop_wf (prf : PRF) (key : Bytes) (size : Nat) (H : Nat) :
    ∀ (h : Nat) (n : Int) (k : Bytes) (rest out : List Node),
      1 ≤ h → h ≤ H → TailOK H h rest →
      seekLoop prf key size h n k rest = some out → WFStack H out := by
  intro h
  induction h with
  | zero => intro n k rest out h0; exact absurd h0 (by omega)
  | succ hp ih =>
    intro n k rest out _ hH ht hloop
    by_cases hn : 0 < n
    · cases hp with
      | zero =>
        rw [seekLoop.eq_def] at hloop
        simp [hn] at hloop
      | succ hq =>
        rw [show hq + 1 + 1 = hq + 2 from rfl] at hloop ht hH
        by_cases hlt : n < (2 : Int) ^ (hq + 1)
        · rw [seekLoop_left prf key size hq n k rest hn hlt] at hloop
          refine ih _ _ _ _ (by omega) (by omega) ?_ hloop
          simp only [TailOK]
          exact ⟨by omega, by omega, ht⟩
        · rw [seekLoop_right prf key size hq n k rest hn hlt] at hloop
          refine ih _ _ _ _ (by omega) (by omega) ?_ hloop
          exact tailOK_mono H rest _ _ (by omega) ht
    · rw [seekLoop_of_nonpos prf key size (hp + 1) n k rest hn] at hloop
      obtain rfl : ({ k := k, h := hp + 1 } : Node) :: rest = out :=
        Option.some_injective _ hloop
      simp only [WFStack]
      exact ⟨by omega, hH, ht⟩

/-- `Seek` preserves stack well-formedness. -/
lemma seek_wf (prf : PRF) (H : Nat) (s t : Seq) (n : Int)
    (hwf : WFStack H s.nodes) (h : Seek prf s n = some t) : WFStack H t.nodes := by
  cases hs : s.nodes with
  | nil => simp [Seek, pop, hs] at h
  | cons nd rest =>
    rw [hs] at hwf
    obtain ⟨ha, hb, hc⟩ := hwf
    simp only [Seek, pop, hs] at h
    cases hx : seekLoop prf s.key s.size nd.h n nd.k rest with
    | none => rw [hx] at h; simp at h
    | some out =>
      rw [hx] at h
      simp only [Option.some.injEq] at h
      have hout := seekLoop_wf prf s.key s.size H nd.h n nd.k rest out ha hb hc hx
      rw [← h]
      exact hout

/-- Every state reachable from a well-formed state is well-formed. -/
lemma reachable_wf (prf : PRF) (H : Nat) (s0 s : Seq)
    (h0 : WFStack H s0.nodes) (hr : Reachable prf s0 s) : WFStack H s.nodes := by
  induction hr with
  | refl => exact h0
  | next _ hstep ih => exact next_wf prf H _ _ ih hstep
  | seek n _ hstep ih => exact seek_wf prf H _ _ n ih hstep

/-- **C5**: for every sequence constructed with `maxKeys ≥ 1` and any run of
valid (non-failing) `next()`/`seek()` operations, the stack depth never
exceeds `H = ceil(log2(maxKeys + 1))`. -/
theorem stack_depth_le_height (prf : PRF) (key seed : Bytes)
    (maxKeys size : Nat) (s : Seq) (hmk : 1 ≤ maxKeys)
    (hr : Reachable prf (New prf key seed maxKeys size) s) :
    s.nodes.length ≤ Nat.clog 2 (maxKeys + 1) := by
  have h0 : WFStack (initialHeight maxKeys) (New prf key seed maxKeys size).nodes :=
    ⟨initialHeight_pos maxKeys hmk, Nat.le_refl _, trivial⟩
  have hwf := reachable_wf prf (initialHeight maxKeys) _ s h0 hr
  have := wfStack_length (initialHeight maxKeys) s.nodes hwf
  rwa [initialHeight_eq_clog] at this

theorem stack_depth_le_height_witness :
    (1 ≤ 4) ∧ (⟨[⟨[], 2⟩, ⟨[], 2⟩], [], 8⟩ : Seq).nodes.length ≤ Nat.clog 2 (4 + 1) :=
  ⟨by decide,
    stack_depth_le_height cprf [] [] 4 8 ⟨[⟨[], 2⟩, ⟨[], 2⟩], [], 8⟩ (by decide)
      (Reachable.next (Reachable.refl (New cprf [] [] 4 8)) (by decide))⟩

/-! ## Simple operation-level claims -/

/-- **C4**: `next()` invoked when the node stack is already empty fails:
`pop` finds no node, which in the source is a panic (the spec's single error
kind, `KeyspaceExhausted`), modelled as `none`. -/
theorem next_empty_stack_fails (prf : PRF) (s : Seq) (hs : s.nodes = []) :
    Next prf s = none := by
  simp [Next, pop, hs]

theorem next_empty_stack_fails_witness :
    (⟨[], [], 32⟩ : Seq).nodes = [] ∧ Next cprf ⟨[], [], 32⟩ = none :=
  ⟨rfl, next_empty_stack_fails cprf ⟨[], [], 32⟩ rfl⟩

/-- **C6**: `next()` pops the top entry `(secret, h)`; if `h > 1` it pushes
`(PRF("right", secret), h-1)` then `(PRF("left", secret), h-1)`, so the left
child is the new top; if `h == 1` it pushes nothing, so the stack is just the
remaining earlier entries. -/
theorem next_step_spec (prf : PRF) (s : Seq) (nd : Node) (rest : List Node)
    (hs : s.nodes = nd :: rest) :
    (1 < nd.h → Next prf s =
      some ⟨{ k := prf s.size left s.key nd.k, h := nd.h - 1 } ::
            { k := prf s.size right s.key nd.k, h := nd.h - 1 } :: rest,
            s.key, s.size⟩)
    ∧ (nd.h = 1 → Next prf s = some ⟨rest, s.key, s.size⟩) := by
  constructor
  · intro h1
    simp [Next, pop, push, hs, h1]
  · intro h1
    simp [Next, pop, hs, h1]

theorem next_step_spec_witness :
    ((⟨[⟨[], 2⟩], [], 4⟩ : Seq).nodes = ⟨[], 2⟩ :: []) ∧
    ((1 < (2 : Nat) → Next cprf ⟨[⟨[], 2⟩], [], 4⟩ =
        some ⟨[⟨[], 1⟩, ⟨[], 1⟩], [], 4⟩)
     ∧ ((2 : Nat) = 1 → Next cprf ⟨[⟨[], 2⟩], [], 4⟩ = some ⟨[], [], 4⟩)) :=
  ⟨rfl, next_step_spec cprf ⟨[⟨[], 2⟩], [], 4⟩ ⟨[], 2⟩ [] rfl⟩

/-- **C7 is false as stated** for large `maxKeys`: Go computes the root
height as `uint(math.Ceil(math.Log2(float64(maxKeys) + 1)))` in float64.  At
`maxKeys = 2 ^ 53`, `float64(2 ^ 53) + 1` rounds back (ties-to-even) to the
power of two `2 ^ 53`; Go's `Log2` is exact on powers of two (the
`frac == 0.5` branch of `math.log2`) and returns exactly 53, so the
constructed root height is 53 — while the claim's formula
`ceil(log2(maxKeys + 1))` gives 54. -/
theorem new_height_formula_counterexample :
    goLog2Arg (2 ^ 53) = 2 ^ 53 ∧
    Nat.clog 2 (2 ^ 53 + 1) = 54 ∧
    (54 : Nat) ≠ 53 := by
  refine ⟨by decide, ?_, by decide⟩
  rw [← initialHeight_eq_clog]
  decide

/-- **C7 (amended)**: construction derives exactly one root node whose
secret is the single PRF evaluation `PRF("seed", seed)` and pushes it as the
only stack entry (the right-hand side exhibits the one `prf` application
`New` performs); on the float64-exact range (`maxKeys ≤ 2 ^ 32`) its height
is exactly `ceil(log2(maxKeys + 1))`.  For larger `maxKeys` (e.g. `2 ^ 53`)
the float64-computed height can be one less than that formula: see the
counterexample above. -/
theorem new_single_root (prf : PRF) (key seed : Bytes) (maxKeys keySize : Nat)
    (_hub : maxKeys ≤ 2 ^ 32) :
    New prf key seed maxKeys keySize =
      ⟨[{ k := prf keySize "seed" key seed, h := Nat.clog 2 (maxKeys + 1) }],
        key, keySize⟩ := by
  simp [New, initialHeight_eq_clog]

theorem new_single_root_witness :
    ((2 ^ 32 : Nat) ≤ 2 ^ 32) ∧
    New cprf [] [] (2 ^ 32) 8 =
      ⟨[{ k := cprf 8 "seed" [] [], h := Nat.clog 2 (2 ^ 32 + 1) }], [], 8⟩ :=
  ⟨by decide, new_single_root cprf [] [] (2 ^ 32) 8 (by decide)⟩

/-- **C8**: `key()` returns `PRF("key", top.secret)`; it is a pure function
of the state (it takes `Seq` by value and mutates nothing), so repeated calls
with no intervening `next()`/`seek()` return identical bytes. -/
theorem key_formula (prf : PRF) (s : Seq) (nd : Node) (rest : List Node)
    (hs : s.nodes = nd :: rest) :
    Key prf s = some (prf s.size "key" s.key nd.k) := by
  simp [Key, hs]

theorem key_formula_witness :
    ((⟨[⟨[7], 2⟩], [3], 4⟩ : Seq).nodes = ⟨[7], 2⟩ :: []) ∧
    Key cprf ⟨[⟨[7], 2⟩], [3], 4⟩ = some (cprf 4 "key" [3] [7]) :=
  ⟨rfl, key_formula cprf ⟨[⟨[7], 2⟩], [3], 4⟩ ⟨[7], 2⟩ [] rfl⟩

/-- **C9**: `seek(0)` is a no-op on every Active (non-empty-stack) state: the
loop body never runs and the popped top is pushed back unchanged. -/
theorem seek_zero_noop (prf : PRF) (s : Seq) (nd : Node) (rest : List Node)
    (hs : s.nodes = nd :: rest) : Seek prf s 0 = some s := by
  obtain ⟨nodes, key, size⟩ := s
  obtain ⟨k, h⟩ := nd
  simp only at hs
  subst hs
  simp [Seek, pop, seekLoop_of_nonpos]

theorem seek_zero_noop_witness :
    ((⟨[⟨[5], 3⟩], [], 8⟩ : Seq).nodes = ⟨[5], 3⟩ :: []) ∧
    Seek cprf ⟨[⟨[5], 3⟩], [], 8⟩ 0 = some ⟨[⟨[5], 3⟩], [], 8⟩ :=
  ⟨rfl, seek_zero_noop cprf ⟨[⟨[5], 3⟩], [], 8⟩ ⟨[5], 3⟩ [] rfl⟩

/-- **C10**: for negative `n` (outside the spec's `n ≥ 0` precondition),
`Seek(n)` on an Active state succeeds and leaves the state unchanged, exactly
like `seek(0)`: the `for n > 0` loop never runs and the popped top node is
pushed back with its original secret and height. -/
theorem seek_negative_noop (prf : PRF) (s : Seq) (nd : Node) (rest : List Node)
    (n : Int) (hs : s.nodes = nd :: rest) (hn : n < 0) : Seek prf s n = some s := by
  obtain ⟨nodes, key, size⟩ := s
  obtain ⟨k, h⟩ := nd
  simp only at hs
  subst hs
  have h0 : ¬ (0 : Int) < n := by omega
  simp [Seek, pop, seekLoop_of_nonpos, h0]

theorem seek_negative_noop_witness :
    ((⟨[⟨[5], 3⟩], [], 8⟩ : Seq).nodes = ⟨[5], 3⟩ :: []) ∧ (-7 : Int) < 0 ∧
    Seek cprf ⟨[⟨[5], 3⟩], [], 8⟩ (-7) = some ⟨[⟨[5], 3⟩], [], 8⟩ :=
  ⟨rfl, by decide,
    seek_negative_noop cprf ⟨[⟨[5], 3⟩], [], 8⟩ ⟨[5], 3⟩ [] (-7) rfl (by decide)⟩

end Sskg
